import Mathlib

/-!
Verification of the QuantumBlockchain repository: a shallow embedding of the
block-chaining and replication engine (Quantumeth.py, qtp.py,
quantumblockchainnetworkcosmos.py, quantumsolanaalgorithm.py) together with
the transaction-ordering optimizer, and proofs of the stated properties.

The SHA-256 digest (hashlib.sha256 in the source) is implemented concretely
over Nat so that hash values can be evaluated. The quantum-circuit entropy
string (cirq or braket simulation output, out of scope per the spec) is a
parameter `entropy : String` of every definition that consumes it.
-/

set_option maxRecDepth 100000

set_option maxHeartbeats 1000000

namespace QB

/-! ## SHA-256 over Nat (model of hashlib.sha256(...).hexdigest()) -/

/-- Truncate to a 32-bit word. -/
def u32 (n : Nat) : Nat := n % 4294967296

/-- 32-bit right rotation. -/
def rotr (n x : Nat) : Nat := u32 ((x >>> n) ||| (x <<< (32 - n)))

def smallSigma0 (x : Nat) : Nat := (rotr 7 x) ^^^ (rotr 18 x) ^^^ (x >>> 3)

def smallSigma1 (x : Nat) : Nat := (rotr 17 x) ^^^ (rotr 19 x) ^^^ (x >>> 10)

def bigSigma0 (x : Nat) : Nat := (rotr 2 x) ^^^ (rotr 13 x) ^^^ (rotr 22 x)

def bigSigma1 (x : Nat) : Nat := (rotr 6 x) ^^^ (rotr 11 x) ^^^ (rotr 25 x)

def chFn (e f g : Nat) : Nat := (e &&& f) ^^^ ((4294967295 ^^^ e) &&& g)

def majFn (a b c : Nat) : Nat := (a &&& b) ^^^ (a &&& c) ^^^ (b &&& c)

/-- The 64 SHA-256 round constants, in decimal. -/
def kConst : List Nat :=
  [1116352408, 1899447441, 3049323471, 3921009573, 961987163, 1508970993,
   2453635748, 2870763221, 3624381080, 310598401, 607225278, 1426881987,
   1925078388, 2162078206, 2614888103, 3248222580, 3835390401, 4022224774,
   264347078, 604807628, 770255983, 1249150122, 1555081692, 1996064986,
   2554220882, 2821834349, 2952996808, 3210313671, 3336571891, 3584528711,
   113926993, 338241895, 666307205, 773529912, 1294757372, 1396182291,
   1695183700, 1986661051, 2177026350, 2456956037, 2730485921, 2820302411,
   3259730800, 3345764771, 3516065817, 3600352804, 4094571909, 275423344,
   430227734, 506948616, 659060556, 883997877, 958139571, 1322822218,
   1537002063, 1747873779, 1955562222, 2024104815, 2227730452, 2361852424,
   2428436474, 2756734187, 3204031479, 3329325298]

/-- Working state of the compression function. -/
structure Hash8 where
  a : Nat
  b : Nat
  c : Nat
  d : Nat
  e : Nat
  f : Nat
  g : Nat
  h : Nat
deriving DecidableEq, Repr

/-- SHA-256 initial hash value, in decimal. -/
def initH : Hash8 :=
  ⟨1779033703, 3144134277, 1013904242, 2773480762,
   1359893119, 2600822924, 528734635, 1541459225⟩

/-- Extend the 16-word message schedule; the fuel is the number of extra
words still to produce (48 for a full schedule). -/
def extendW : Nat → List Nat → List Nat
  | 0, w => w
  | n + 1, w =>
    let i := w.length
    let nw := u32 (smallSigma1 (w.getD (i - 2) 0) + w.getD (i - 7) 0 +
                   smallSigma0 (w.getD (i - 15) 0) + w.getD (i - 16) 0)
    extendW n (w ++ [nw])

/-- One pass of the 64 compression rounds, consuming schedule/constant pairs. -/
def compressList : List (Nat × Nat) → Hash8 → Hash8
  | [], s => s
  | (wi, ki) :: rest, s =>
    let t1 := u32 (s.h + bigSigma1 s.e + chFn s.e s.f s.g + ki + wi)
    let t2 := u32 (bigSigma0 s.a + majFn s.a s.b s.c)
    compressList rest ⟨u32 (t1 + t2), s.a, s.b, s.c, u32 (s.d + t1), s.e, s.f, s.g⟩

/-- Big-endian 4-byte groups to 32-bit words. -/
def bytesToWords : List Nat → List Nat
  | b0 :: b1 :: b2 :: b3 :: rest => (((b0 * 256 + b1) * 256 + b2) * 256 + b3) :: bytesToWords rest
  | _ => []

/-- Process one 64-byte chunk. -/
def processChunk (s : Hash8) (chunk : List Nat) : Hash8 :=
  let w := extendW 48 (bytesToWords chunk)
  let t := compressList (w.zip kConst) s
  ⟨u32 (s.a + t.a), u32 (s.b + t.b), u32 (s.c + t.c), u32 (s.d + t.d),
   u32 (s.e + t.e), u32 (s.f + t.f), u32 (s.g + t.g), u32 (s.h + t.h)⟩

/-- Split into 64-byte chunks; the fuel is an upper bound on the input length. -/
def chunks64Aux : Nat → List Nat → List (List Nat)
  | 0, _ => []
  | _, [] => []
  | n + 1, l => l.take 64 :: chunks64Aux n (l.drop 64)

/-- UTF-8 encoding of one code point, as bytes. -/
def utf8Encode (c : Nat) : List Nat :=
  if c < 0x80 then [c]
  else if c < 0x800 then [0xC0 ||| (c >>> 6), 0x80 ||| (c &&& 0x3F)]
  else if c < 0x10000 then
    [0xE0 ||| (c >>> 12), 0x80 ||| ((c >>> 6) &&& 0x3F), 0x80 ||| (c &&& 0x3F)]
  else
    [0xF0 ||| (c >>> 18), 0x80 ||| ((c >>> 12) &&& 0x3F),
     0x80 ||| ((c >>> 6) &&& 0x3F), 0x80 ||| (c &&& 0x3F)]

/-- The bytes of a string, as in Python str.encode(). -/
def strBytes (s : String) : List Nat := s.data.flatMap (fun ch => utf8Encode ch.toNat)

/-- The 8-byte big-endian encoding of the message bit length. -/
def lenBytes8 (n : Nat) : List Nat :=
  (List.range 8).map (fun i => (n >>> (56 - 8 * i)) &&& 255)

/-- A nibble as a lowercase hex character. -/
def hexDigit (n : Nat) : Char :=
  if n < 10 then Char.ofNat (48 + n) else Char.ofNat (87 + n)

/-- A 32-bit word as 8 hex characters. -/
def wordHex (w : Nat) : String :=
  String.mk ((List.range 8).map (fun i => hexDigit ((w >>> (28 - 4 * i)) &&& 15)))

/-- hashlib.sha256(s.encode()).hexdigest(). -/
def sha256Hex (s : String) : String :=
  let msg := strBytes s
  let padded := msg ++ [128] ++ List.replicate ((119 - msg.length % 64) % 64) 0 ++
                lenBytes8 (8 * msg.length)
  let final := (chunks64Aux padded.length padded).foldl processChunk initH
  String.join ([final.a, final.b, final.c, final.d,
                final.e, final.f, final.g, final.h].map wordHex)

/-! ## Data model: Block, QuantumNode, QuantumNetwork

Blocks are the dicts built by QuantumNode.create_block in Quantumeth.py
(the cosmos and solana files build the identical dict).  Python node objects
are shared between QuantumNetwork.nodes and QuantumCloud.connected_nodes, so
the network state carries a single list of nodes and broadcast rewrites it. -/

structure Block where
  transactions : List String
  previous_hash : String
  hash : String
deriving DecidableEq, Repr

structure QuantumNode where
  node_id : Nat
  chain : List Block
deriving DecidableEq, Repr

/-- QuantumNode.generate_quantum_hash: sha256 of the data with the
circuit-simulation output string appended (combined_data = data + state_str). -/
def generate_quantum_hash (entropy : String) (data : String) : String :=
  sha256Hex (data ++ entropy)

/-- QuantumNode.create_block: join the transactions, append previous_hash,
hash, append the new block to the node chain and return it. -/
def create_block (entropy : String) (node : QuantumNode) (transactions : List String)
    (previous_hash : String) : Block × QuantumNode :=
  let data := String.join transactions ++ previous_hash
  let block_hash := generate_quantum_hash entropy data
  let block : Block := ⟨transactions, previous_hash, block_hash⟩
  (block, { node with chain := node.chain ++ [block] })

/-- QuantumCloud.broadcast: append the block to the chain of every connected
node, in registration order. -/
def broadcast (nodes : List QuantumNode) (block : Block) : List QuantumNode :=
  nodes.map (fun node => { node with chain := node.chain ++ [block] })

structure QuantumNetwork where
  nodes : List QuantumNode
  global_chain : List Block
  contract : Option Unit
deriving DecidableEq, Repr

/-- QuantumNetwork.__init__ with num_nodes nodes: every node starts with an
empty chain, the cloud connects them all, the global chain is empty and no
ERC20 contract is deployed. -/
def mkNetwork (num_nodes : Nat) : QuantumNetwork :=
  ⟨(List.range num_nodes).map (fun i => ⟨i, []⟩), [], none⟩

/-- The 64-hex-zero genesis sentinel, the Python literal 0 times 64. -/
def genesis64 : String :=
  "0000000000000000000000000000000000000000000000000000000000000000"

/-- The conditional previous_hash of QuantumNetwork.add_block:
global_chain[-1]["hash"] if the chain is nonempty, else the sentinel. -/
def last_hash (chain : List Block) : String :=
  match chain.getLast? with
  | some b => b.hash
  | none => genesis64

/-- QuantumNetwork.add_block: create a block at nodes[0], append it to the
global chain, broadcast it to every node; the Python function body has no
return statement, so its value is None (modelled as the none in the pair).
Indexing nodes[0] on an empty node list raises IndexError. -/
def add_block (entropy : String) (net : QuantumNetwork) (transactions : List String) :
    Except String (QuantumNetwork × Option Block) :=
  let previous_hash := last_hash net.global_chain
  match net.nodes with
  | [] => .error "IndexError"
  | n0 :: rest =>
    let res := create_block entropy n0 transactions previous_hash
    let new_block := res.1
    .ok (⟨broadcast (res.2 :: rest) new_block,
          net.global_chain ++ [new_block], net.contract⟩, none)

/-- QuantumNetwork.validate_chain: scan adjacent pairs front to back and
return False at the first previous_hash mismatch. -/
def validate_chain : List Block → Bool
  | [] => true
  | [_] => true
  | a :: b :: rest =>
    if b.previous_hash != a.hash then false else validate_chain (b :: rest)

/-- A sequence of add_block calls, as in repeated use of the network. -/
def run_add_blocks (entropy : String) :
    QuantumNetwork → List (List String) → Except String QuantumNetwork
  | net, [] => .ok net
  | net, txs :: rest =>
    match add_block entropy net txs with
    | .error e => .error e
    | .ok p => run_add_blocks entropy p.1 rest

/-- The hash-link relation between consecutive blocks of a valid chain. -/
def Link (a b : Block) : Prop := b.previous_hash = a.hash

/-- The block that create_block builds for the given previous chain and
transactions (its value does not depend on the node it is created at). -/
def made_block (entropy : String) (chain : List Block) (txs : List String) : Block :=
  (create_block entropy ⟨0, []⟩ txs (last_hash chain)).1

/-- QuantumNetwork.create_transaction up to its external web3 calls: raises
ValueError when no ERC20 contract is deployed, otherwise proceeds (the
build_transaction / sign / send path is the external ledger connector). -/
def create_transaction (net : QuantumNetwork) (sender_address recipient_address : String)
    (amount : Nat) (private_key : String) : Except String Unit :=
  match net.contract with
  | none => .error "ERC20 contract not deployed."
  | some _ => .ok ()

/-- QuantumNetwork.transfer_erc20 up to its external web3 calls: raises
ValueError when no ERC20 contract is deployed, otherwise proceeds. -/
def transfer_erc20 (net : QuantumNetwork) (recipient : String) (amount : Nat)
    (sender_address private_key : String) : Except String Unit :=
  match net.contract with
  | none => .error "ERC20 contract not deployed."
  | some _ => .ok ()

/-! ## The qtp.py variant -/

/-- qtp.py QuantumBlock.generate_hash: sha256 of the circuit-simulation
output string alone; the block data is not part of the digested payload. -/
def qtp_generate_hash (entropy : String) : String :=
  sha256Hex entropy

/-- qtp.py QuantumBlock.__init__: store the transactions and previous_hash
and compute the hash once at construction. -/
def qtp_mkBlock (entropy : String) (transactions : List String)
    (previous_hash : String) : Block :=
  ⟨transactions, previous_hash, qtp_generate_hash entropy⟩

/-- qtp.py QuantumBlockchain.add_block (returns None in Python). -/
def qtp_add_block (entropy : String) (chain : List Block)
    (transactions : List String) : List Block :=
  chain ++ [qtp_mkBlock entropy transactions (last_hash chain)]

/-! ## The transaction-order optimizer

itertools.permutations emits tuples in lexicographic order of positions:
each element of the input is taken as head in input order, followed by the
permutations of the remainder.  The Python built-in hash on strings is fixed
within one process but varies between processes, so the cost function is a
parameter `h : String → Int`. -/

/-- All ways to pick one element of a list, each with the remaining list. -/
def selections {α : Type} : List α → List (α × List α)
  | [] => []
  | x :: xs => (x, xs) :: (selections xs).map (fun p => (p.1, x :: p.2))

/-- Permutations in the emission order of itertools.permutations; the fuel
is the length of the list. -/
def permsAux {α : Type} : Nat → List α → List (List α)
  | 0, _ => [[]]
  | n + 1, l => (selections l).flatMap (fun p => (permsAux n p.2).map (p.1 :: ·))

/-- itertools.permutations(l), each tuple as a list. -/
def permutationsPy {α : Type} (l : List α) : List (List α) :=
  permsAux l.length l

/-- The inner calculate_cost: sum over adjacent pairs of the absolute hash
difference. -/
def calculate_cost (h : String → Int) : List String → Int
  | a :: b :: rest => |h a - h b| + calculate_cost h (b :: rest)
  | _ => 0

/-- cost < best_cost where best_cost starts out as float("inf"). -/
def ltInf (c : Int) : Option Int → Bool
  | none => true
  | some b => c < b

/-- One iteration of the loop body of optimize_transaction_order: keep the
candidate order when its cost is strictly below the best cost so far. -/
def opt_step (h : String → Int) (best : List String × Option Int)
    (order : List String) : List String × Option Int :=
  let cost := calculate_cost h order
  if ltInf cost best.2 then (order, some cost) else best

/-- QuantumNetwork.optimize_transaction_order: iterate over all permutations,
keeping the strictly cheapest one seen so far; best_order starts as the
input and best_cost as infinity. -/
def optimize_transaction_order (h : String → Int) (transactions : List String) :
    List String :=
  ((permutationsPy transactions).foldl (opt_step h)
    (transactions, (none : Option Int))).1

/-- Reference first-argmin of the cost over a current best and a list. -/
def firstMinBy (h : String → Int) (b : List String) : List (List String) → List String
  | [] => b
  | x :: xs =>
    if calculate_cost h x < calculate_cost h b then firstMinBy h x xs
    else firstMinBy h b xs

/-! ## Lemmas about validation and the chain-link invariant -/

theorem validate_chain_iff : ∀ c : List Block, validate_chain c = true ↔ List.Chain' Link c
  | [] => by simp [validate_chain]
  | [a] => by simp [validate_chain]
  | a :: b :: rest => by
    by_cases hab : b.previous_hash = a.hash
    · simp [validate_chain, hab, validate_chain_iff (b :: rest), List.chain'_cons, Link]
    · simp [validate_chain, hab, List.chain'_cons, Link]

theorem validate_chain_false_iff (c : List Block) :
    validate_chain c = false ↔
      ∃ i, ∃ hi : i + 1 < c.length,
        (c.get ⟨i + 1, hi⟩).previous_hash ≠ (c.get ⟨i, Nat.lt_of_succ_lt hi⟩).hash := by
  have h1 := validate_chain_iff c
  rw [List.chain'_iff_get] at h1
  constructor
  · intro hf
    by_contra hne
    push_neg at hne
    have hall : validate_chain c = true := by
      apply h1.mpr
      intro i hilt
      have hi : i + 1 < c.length := by omega
      have := hne i hi
      simpa [Link] using not_not.mp (by simpa using this)
    rw [hall] at hf
    exact absurd hf (by simp)
  · rintro ⟨i, hi, hne⟩
    rcases hv : validate_chain c with _ | _
    · rfl
    · exact absurd (h1.mp hv i (by omega)) (fun h => hne (by simpa [Link] using h))

theorem chain'_snoc_link (c : List Block) (b : Block)
    (hb : b.previous_hash = last_hash c) (hc : List.Chain' Link c) :
    List.Chain' Link (c ++ [b]) := by
  rw [List.chain'_append]
  refine ⟨hc, List.chain'_singleton _, ?_⟩
  intro x hx y hy
  simp only [List.head?_cons, Option.mem_def, Option.some.injEq] at hy
  subst hy
  have hxl : c.getLast? = some x := hx
  show b.previous_hash = x.hash
  rw [hb]
  simp [last_hash, hxl]

theorem validate_chain_congr : ∀ c1 c2 : List Block,
    c1.map (fun b => (b.previous_hash, b.hash)) =
      c2.map (fun b => (b.previous_hash, b.hash)) →
    validate_chain c1 = validate_chain c2
  | [], [], _ => rfl
  | [], _ :: _, h => by simp at h
  | _ :: _, [], h => by simp at h
  | [_], [_], _ => rfl
  | [_], _ :: _ :: _, h => by simp at h
  | _ :: _ :: _, [_], h => by simp at h
  | a :: a2 :: t, b :: b2 :: t2, h => by
    simp only [List.map_cons, List.cons.injEq, Prod.mk.injEq] at h
    obtain ⟨⟨_, hha⟩, ⟨hpb, hhb⟩, ht⟩ := h
    have hrec := validate_chain_congr (a2 :: t) (b2 :: t2)
      (by simp only [List.map_cons, List.cons.injEq, Prod.mk.injEq]; exact ⟨⟨hpb, hhb⟩, ht⟩)
    simp only [validate_chain, hpb, hha, hrec]

/-! ## Lemmas about add_block and run_add_blocks -/

theorem add_block_eq (entropy : String) (net : QuantumNetwork) (txs : List String)
    (n0 : QuantumNode) (rest : List QuantumNode) (hn : net.nodes = n0 :: rest) :
    add_block entropy net txs =
      .ok (⟨broadcast ({ n0 with chain := n0.chain ++ [made_block entropy net.global_chain txs] }
              :: rest) (made_block entropy net.global_chain txs),
            net.global_chain ++ [made_block entropy net.global_chain txs],
            net.contract⟩, none) := by
  obtain ⟨nodes, gc, contract⟩ := net
  simp only at hn
  subst hn
  rfl

theorem made_block_previous_hash (entropy : String) (chain : List Block) (txs : List String) :
    (made_block entropy chain txs).previous_hash = last_hash chain := rfl

theorem run_add_blocks_ok (entropy : String) :
    ∀ (batches : List (List String)) (net : QuantumNetwork), net.nodes ≠ [] →
      ∃ net', run_add_blocks entropy net batches = .ok net' ∧ net'.nodes ≠ [] ∧
        (List.Chain' Link net.global_chain → List.Chain' Link net'.global_chain)
  | [], net, hne => ⟨net, rfl, hne, fun h => h⟩
  | txs :: bs, net, hne => by
    obtain ⟨n0, rest, hn⟩ : ∃ n0 rest, net.nodes = n0 :: rest := by
      cases hcase : net.nodes with
      | nil => exact absurd hcase hne
      | cons a b => exact ⟨a, b, rfl⟩
    have hstep := add_block_eq entropy net txs n0 rest hn
    set b := made_block entropy net.global_chain txs with hb
    set net1 : QuantumNetwork :=
      ⟨broadcast ({ n0 with chain := n0.chain ++ [b] } :: rest) b,
       net.global_chain ++ [b], net.contract⟩ with hnet1
    have hnodes1 : net1.nodes ≠ [] := by simp [hnet1, broadcast]
    obtain ⟨net', hrun, hne', hch⟩ := run_add_blocks_ok entropy bs net1 hnodes1
    refine ⟨net', ?_, hne', ?_⟩
    · rw [run_add_blocks, hstep]
      exact hrun
    · intro hc
      exact hch (chain'_snoc_link net.global_chain b (made_block_previous_hash _ _ _) hc)

theorem mkNetwork_nodes_ne_nil (num_nodes : Nat) (hpos : 0 < num_nodes) :
    (mkNetwork num_nodes).nodes ≠ [] := by
  simp only [mkNetwork, ne_eq, List.map_eq_nil_iff, List.range_eq_nil]
  omega

/-! ## Lemmas about the permutation enumeration -/

theorem selections_length {α : Type} : ∀ {l : List α} {p : α × List α},
    p ∈ selections l → p.2.length + 1 = l.length
  | x :: xs, p, hp => by
    rw [selections] at hp
    rcases List.mem_cons.mp hp with h | h
    · subst h; rfl
    · obtain ⟨q, hq, hqe⟩ := List.mem_map.mp h
      have := selections_length hq
      subst hqe
      simp only [List.length_cons]
      omega

theorem selections_perm {α : Type} : ∀ {l : List α} {p : α × List α},
    p ∈ selections l → (p.1 :: p.2).Perm l
  | x :: xs, p, hp => by
    rw [selections] at hp
    rcases List.mem_cons.mp hp with h | h
    · subst h; exact List.Perm.refl _
    · obtain ⟨q, hq, hqe⟩ := List.mem_map.mp h
      have hrec := selections_perm hq
      subst hqe
      exact (List.Perm.swap x q.1 q.2).trans (hrec.cons x)

theorem selections_complete {α : Type} : ∀ {l : List α} {x : α}, x ∈ l →
    ∃ rest, (x, rest) ∈ selections l ∧ (x :: rest).Perm l
  | y :: ys, x, hx => by
    rcases List.mem_cons.mp hx with h | h
    · subst h
      exact ⟨ys, List.mem_cons_self _ _, List.Perm.refl _⟩
    · obtain ⟨r, hm, hp⟩ := selections_complete h
      refine ⟨y :: r, ?_, ?_⟩
      · rw [selections]
        exact List.mem_cons_of_mem _ (List.mem_map.mpr ⟨(x, r), hm, rfl⟩)
      · exact (List.Perm.swap y x r).trans (hp.cons y)

theorem permsAux_sound {α : Type} : ∀ (n : Nat) (l : List α), n = l.length →
    ∀ m ∈ permsAux n l, m.Perm l
  | 0, l, hn, m, hm => by
    have : l = [] := by
      cases l with
      | nil => rfl
      | cons a t => simp at hn
    subst this
    simp only [permsAux, List.mem_singleton] at hm
    subst hm
    exact List.Perm.refl _
  | n + 1, l, hn, m, hm => by
    simp only [permsAux, List.mem_flatMap] at hm
    obtain ⟨p, hp, hm⟩ := hm
    obtain ⟨m1, hm1, hme⟩ := List.mem_map.mp hm
    have hlen : n = p.2.length := by have := selections_length hp; omega
    have hrec := permsAux_sound n p.2 hlen m1 hm1
    subst hme
    exact (hrec.cons p.1).trans (selections_perm hp)

theorem permsAux_complete {α : Type} : ∀ (n : Nat) (l m : List α), n = l.length →
    m.Perm l → m ∈ permsAux n l
  | 0, l, m, hn, hm => by
    have hl : l = [] := by
      cases l with
      | nil => rfl
      | cons a t => simp at hn
    subst hl
    have : m = [] := List.Perm.eq_nil hm
    subst this
    simp [permsAux]
  | n + 1, l, m, hn, hm => by
    cases m with
    | nil =>
      have := hm.length_eq
      simp at this
      omega
    | cons x m1 =>
      have hx : x ∈ l := hm.mem_iff.mp (List.mem_cons_self _ _)
      obtain ⟨rest, hmem, hperm⟩ := selections_complete hx
      have hm1 : m1.Perm rest := by
        have : (x :: m1).Perm (x :: rest) := hm.trans hperm.symm
        exact this.cons_inv
      have hrl : n = rest.length := by
        have := hperm.length_eq
        simp only [List.length_cons] at this
        omega
      have hrec := permsAux_complete n rest m1 hrl hm1
      simp only [permsAux, List.mem_flatMap]
      exact ⟨(x, rest), hmem, List.mem_map.mpr ⟨m1, hrec, rfl⟩⟩

theorem permsAux_ne_nil {α : Type} : ∀ (n : Nat) (l : List α), n = l.length →
    permsAux n l ≠ []
  | 0, _, _ => by simp [permsAux]
  | n + 1, l, hn => by
    cases l with
    | nil => simp at hn
    | cons x xs =>
      have hx : n = xs.length := by simp only [List.length_cons] at hn; omega
      have hrec := permsAux_ne_nil n xs hx
      simp only [permsAux, selections, List.flatMap_cons, ne_eq, List.append_eq_nil,
        List.map_eq_nil_iff, not_and]
      intro h
      exact absurd h hrec

theorem permutationsPy_sound {α : Type} (l : List α) :
    ∀ m ∈ permutationsPy l, m.Perm l :=
  permsAux_sound l.length l rfl

theorem permutationsPy_complete {α : Type} (l m : List α) (hm : m.Perm l) :
    m ∈ permutationsPy l :=
  permsAux_complete l.length l m rfl hm

theorem permutationsPy_ne_nil {α : Type} (l : List α) : permutationsPy l ≠ [] :=
  permsAux_ne_nil l.length l rfl

/-! ## Lemmas about the optimizer fold -/

theorem opt_step_some (h : String → Int) (b x : List String) (cb : Int) :
    opt_step h (b, some cb) x =
      if calculate_cost h x < cb then (x, some (calculate_cost h x)) else (b, some cb) := by
  by_cases hc : calculate_cost h x < cb
  · simp [opt_step, ltInf, hc]
  · simp [opt_step, ltInf, hc]

theorem foldl_step_firstMinBy (h : String → Int) :
    ∀ (L : List (List String)) (b : List String),
      L.foldl (opt_step h) (b, some (calculate_cost h b)) =
      (firstMinBy h b L, some (calculate_cost h (firstMinBy h b L)))
  | [], _ => rfl
  | x :: xs, b => by
    rw [List.foldl_cons, opt_step_some]
    by_cases hc : calculate_cost h x < calculate_cost h b
    · rw [if_pos hc]
      simp only [firstMinBy, hc, if_true]
      exact foldl_step_firstMinBy h xs x
    · rw [if_neg hc]
      simp only [firstMinBy, hc, if_false]
      exact foldl_step_firstMinBy h xs b

theorem firstMinBy_mem (h : String → Int) :
    ∀ (L : List (List String)) (b : List String), firstMinBy h b L ∈ b :: L
  | [], b => List.mem_singleton.mpr rfl
  | x :: xs, b => by
    rw [firstMinBy]
    by_cases hc : calculate_cost h x < calculate_cost h b
    · simp only [hc, if_true]
      have := firstMinBy_mem h xs x
      rcases List.mem_cons.mp this with he | ht
      · rw [he]; simp
      · exact List.mem_cons_of_mem _ (List.mem_cons_of_mem _ ht)
    · simp only [hc, if_false]
      have := firstMinBy_mem h xs b
      rcases List.mem_cons.mp this with he | ht
      · rw [he]; simp
      · exact List.mem_cons_of_mem _ (List.mem_cons_of_mem _ ht)

theorem firstMinBy_min (h : String → Int) :
    ∀ (L : List (List String)) (b : List String), ∀ x ∈ b :: L,
      calculate_cost h (firstMinBy h b L) ≤ calculate_cost h x
  | [], b, x, hx => by
    simp only [List.mem_singleton] at hx
    subst hx
    exact le_refl _
  | y :: ys, b, x, hx => by
    rw [firstMinBy]
    by_cases hc : calculate_cost h y < calculate_cost h b
    · simp only [hc, if_true]
      rcases List.mem_cons.mp hx with he | ht
      · rw [he]
        exact le_of_lt (lt_of_le_of_lt (firstMinBy_min h ys y y (List.mem_cons_self _ _)) hc)
      · exact firstMinBy_min h ys y x ht
    · simp only [hc, if_false]
      rcases List.mem_cons.mp hx with he | ht
      · rw [he]
        exact firstMinBy_min h ys b b (List.mem_cons_self _ _)
      · rcases List.mem_cons.mp ht with he2 | ht2
        · subst he2
          exact le_trans (firstMinBy_min h ys b b (List.mem_cons_self _ _)) (not_lt.mp hc)
        · exact firstMinBy_min h ys b x (List.mem_cons_of_mem _ ht2)

theorem firstMinBy_first (h : String → Int) :
    ∀ (L : List (List String)) (b : List String),
      ∃ l1 l2, b :: L = l1 ++ firstMinBy h b L :: l2 ∧
        ∀ y ∈ l1, calculate_cost h (firstMinBy h b L) < calculate_cost h y
  | [], b => ⟨[], [], rfl, by simp⟩
  | x :: xs, b => by
    rw [firstMinBy]
    by_cases hc : calculate_cost h x < calculate_cost h b
    · simp only [hc, if_true]
      obtain ⟨l1, l2, heq, hlt⟩ := firstMinBy_first h xs x
      refine ⟨b :: l1, l2, by rw [List.cons_append, ← heq], ?_⟩
      intro y hy
      rcases List.mem_cons.mp hy with he | ht
      · subst he
        exact lt_of_le_of_lt (firstMinBy_min h xs x x (List.mem_cons_self _ _)) hc
      · exact hlt y ht
    · simp only [hc, if_false]
      obtain ⟨l1, l2, heq, hlt⟩ := firstMinBy_first h xs b
      cases l1 with
      | nil =>
        simp only [List.nil_append, List.cons.injEq] at heq
        obtain ⟨hb, hl2⟩ := heq
        refine ⟨[], x :: xs, by simp [← hb], by simp⟩
      | cons a l1t =>
        simp only [List.cons_append, List.cons.injEq] at heq
        obtain ⟨hab, hxs⟩ := heq
        subst hab
        have hrb : calculate_cost h (firstMinBy h b xs) < calculate_cost h b :=
          hlt b (List.mem_cons_self _ _)
        refine ⟨b :: x :: l1t, l2, ?_, ?_⟩
        · conv_lhs => rw [hxs]
          simp
        · intro y hy
          rcases List.mem_cons.mp hy with he | ht
          · subst he; exact hrb
          · rcases List.mem_cons.mp ht with he2 | ht2
            · subst he2
              exact lt_of_lt_of_le hrb (not_lt.mp hc)
            · exact hlt y (List.mem_cons_of_mem _ ht2)

theorem opt_step_none (h : String → Int) (b x : List String) :
    opt_step h (b, none) x = (x, some (calculate_cost h x)) := rfl

theorem optimize_eq_firstMinBy (h : String → Int) (txs : List String)
    (p0 : List String) (ps : List (List String))
    (hp : permutationsPy txs = p0 :: ps) :
    optimize_transaction_order h txs = firstMinBy h p0 ps := by
  rw [optimize_transaction_order, hp, List.foldl_cons, opt_step_none,
    foldl_step_firstMinBy h ps p0]

/-! ## SHA-256 embedding against the standard test vectors -/

theorem sha256Hex_empty :
    sha256Hex "" =
      "e3b0c44298fc1c149afbf4c8996fb92427ae41e4649b934ca495991b7852b855" := by
  decide

theorem sha256Hex_abc :
    sha256Hex "abc" =
      "ba7816bf8f01cfea414140de5dae2223b00361a396177a9cb410ff61f20015ad" := by
  decide

/-! ## The claims -/

/-- C1: for every fresh Network and every sequence of add_block calls, the
resulting canonical chain links every block to the hash of its predecessor
and validate returns true on it; and any chain in which some block carries a
previous_hash different from the hash of its predecessor makes validate
return false. -/
theorem claim_C1 (entropy : String) (num_nodes : Nat) (batches : List (List String))
    (hpos : 0 < num_nodes) :
    (∃ net', run_add_blocks entropy (mkNetwork num_nodes) batches = .ok net' ∧
      (∀ i, ∀ hi : i + 1 < net'.global_chain.length,
        (net'.global_chain.get ⟨i + 1, hi⟩).previous_hash =
          (net'.global_chain.get ⟨i, Nat.lt_of_succ_lt hi⟩).hash) ∧
      validate_chain net'.global_chain = true) ∧
    ∀ c : List Block,
      (∃ i, ∃ hi : i + 1 < c.length,
        (c.get ⟨i + 1, hi⟩).previous_hash ≠ (c.get ⟨i, Nat.lt_of_succ_lt hi⟩).hash) →
      validate_chain c = false := by
  constructor
  · obtain ⟨net', hrun, _, hch⟩ :=
      run_add_blocks_ok entropy batches (mkNetwork num_nodes) (mkNetwork_nodes_ne_nil _ hpos)
    have hchain : List.Chain' Link net'.global_chain := hch List.chain'_nil
    refine ⟨net', hrun, ?_, (validate_chain_iff _).mpr hchain⟩
    intro i hi
    have hlk := (List.chain'_iff_get.mp hchain) i (by omega)
    simpa [Link] using hlk
  · intro c hex
    exact (validate_chain_false_iff c).mpr hex

/-- Witness for C1: one producer node, two add_block calls. -/
theorem claim_C1_witness :
    (0 < 1) ∧
    ((∃ net', run_add_blocks "e" (mkNetwork 1) [["a"], ["b"]] = .ok net' ∧
      (∀ i, ∀ hi : i + 1 < net'.global_chain.length,
        (net'.global_chain.get ⟨i + 1, hi⟩).previous_hash =
          (net'.global_chain.get ⟨i, Nat.lt_of_succ_lt hi⟩).hash) ∧
      validate_chain net'.global_chain = true) ∧
    ∀ c : List Block,
      (∃ i, ∃ hi : i + 1 < c.length,
        (c.get ⟨i + 1, hi⟩).previous_hash ≠ (c.get ⟨i, Nat.lt_of_succ_lt hi⟩).hash) →
      validate_chain c = false) :=
  ⟨by decide, claim_C1 "e" 1 [["a"], ["b"]] (by decide)⟩

/-- C2 counterexample: on a fresh two-node network, one add_block call makes
the producer node replica grow by two blocks, not one: the node chain
lengths after the call are [2, 1], not [1, 1]. -/
theorem claim_C2_cex :
    ((add_block "e" (mkNetwork 2) ["t"]).toOption.map
      (fun p => p.1.nodes.map (fun nd => nd.chain.length))) ≠ some [1, 1] ∧
    ((add_block "e" (mkNetwork 2) ["t"]).toOption.map
      (fun p => p.1.nodes.map (fun nd => nd.chain.length))) = some [2, 1] := by
  constructor
  · decide
  · decide

/-- C2 amended: after add_block the canonical chain grows by exactly one
block; every non-producer node replica grows by exactly one block, the new
block being field-for-field the canonical one; the producer node replica
grows by two copies of that same block (one appended by create_block, one
by the broadcast). -/
theorem claim_C2 (entropy : String) (net : QuantumNetwork) (txs : List String)
    (n0 : QuantumNode) (rest : List QuantumNode) (hn : net.nodes = n0 :: rest) :
    ∃ net' b, add_block entropy net txs = .ok (net', (none : Option Block)) ∧
      net'.global_chain = net.global_chain ++ [b] ∧
      net'.nodes = { n0 with chain := n0.chain ++ [b, b] } ::
        rest.map (fun nd => { nd with chain := nd.chain ++ [b] }) := by
  refine ⟨_, made_block entropy net.global_chain txs,
    add_block_eq entropy net txs n0 rest hn, rfl, ?_⟩
  simp [broadcast, List.append_assoc]

/-- Witness for C2 as amended, on a fresh two-node network. -/
theorem claim_C2_witness :
    ∃ net' b, add_block "e" (mkNetwork 2) ["t"] = .ok (net', (none : Option Block)) ∧
      net'.global_chain = (mkNetwork 2).global_chain ++ [b] ∧
      net'.nodes = { (⟨0, []⟩ : QuantumNode) with chain := [] ++ [b, b] } ::
        [(⟨1, []⟩ : QuantumNode)].map (fun nd => { nd with chain := nd.chain ++ [b] }) :=
  claim_C2 "e" (mkNetwork 2) ["t"] ⟨0, []⟩ [⟨1, []⟩] (by decide)

/-- C3 counterexample: in the qtp.py variant the created block hash is not
the digest of the transaction texts, previous_hash and entropy string
concatenated - it digests the entropy string alone. -/
theorem claim_C3_cex :
    (qtp_mkBlock "e" ["t"] "p").hash ≠ sha256Hex ((String.join ["t"] ++ "p") ++ "e") := by
  decide

/-- C3 amended: in the Quantumeth, cosmos and solana variants the created
block hash is the hex digest of sha256 over the transaction texts joined in
order, then previous_hash, then the entropy string, and it depends on the
transactions and the previous_hash; in the qtp.py variant the hash is the
digest of the entropy string alone, independent of transactions and
previous_hash. -/
theorem claim_C3 :
    (∀ (entropy : String) (node : QuantumNode) (txs : List String) (prev : String),
      ((create_block entropy node txs prev).1).hash =
        sha256Hex ((String.join txs ++ prev) ++ entropy)) ∧
    (∀ (entropy : String) (txs : List String) (prev : String),
      (qtp_mkBlock entropy txs prev).hash = sha256Hex entropy) ∧
    (create_block "e" ⟨0, []⟩ ["t"] "p").1.hash ≠ (create_block "e" ⟨0, []⟩ ["u"] "p").1.hash ∧
    (create_block "e" ⟨0, []⟩ ["t"] "p").1.hash ≠ (create_block "e" ⟨0, []⟩ ["t"] "q").1.hash := by
  refine ⟨fun _ _ _ _ => rfl, fun _ _ _ => rfl, ?_, ?_⟩
  · decide
  · decide

/-- C4: the optimizer returns a permutation of its input whose adjacent-cost
sum is minimal over all permutations, and among the permutations of minimal
cost the one emitted first by the enumeration is returned; this holds for
every integer hash function, in particular for a stable one. -/
theorem claim_C4 (h : String → Int) (txs : List String) :
    List.Perm (optimize_transaction_order h txs) txs ∧
    (∀ p : List String, List.Perm p txs →
      calculate_cost h (optimize_transaction_order h txs) ≤ calculate_cost h p) ∧
    ∃ l1 l2, permutationsPy txs = l1 ++ optimize_transaction_order h txs :: l2 ∧
      ∀ y ∈ l1, calculate_cost h (optimize_transaction_order h txs) < calculate_cost h y := by
  cases hp : permutationsPy txs with
  | nil => exact absurd hp (permutationsPy_ne_nil txs)
  | cons p0 ps =>
    have hopt := optimize_eq_firstMinBy h txs p0 ps hp
    rw [hopt]
    refine ⟨?_, ?_, ?_⟩
    · have hmem := firstMinBy_mem h ps p0
      rw [← hp] at hmem
      exact permutationsPy_sound txs _ hmem
    · intro p hperm
      have hpmem := permutationsPy_complete txs p hperm
      rw [hp] at hpmem
      exact firstMinBy_min h ps p0 p hpmem
    · obtain ⟨l1, l2, heq, hlt⟩ := firstMinBy_first h ps p0
      exact ⟨l1, l2, heq, hlt⟩

/-- Witness for C4 at a concrete stable hash (string length) and three
transactions; the optimum there is ["a", "c", "bb"]. -/
theorem claim_C4_witness :
    (optimize_transaction_order (fun s => (s.length : Int)) ["a", "bb", "c"] =
      ["a", "c", "bb"]) ∧
    (List.Perm (optimize_transaction_order (fun s => (s.length : Int)) ["a", "bb", "c"])
      ["a", "bb", "c"] ∧
    (∀ p : List String, List.Perm p ["a", "bb", "c"] →
      calculate_cost (fun s => (s.length : Int))
          (optimize_transaction_order (fun s => (s.length : Int)) ["a", "bb", "c"]) ≤
        calculate_cost (fun s => (s.length : Int)) p) ∧
    ∃ l1 l2, permutationsPy ["a", "bb", "c"] =
        l1 ++ optimize_transaction_order (fun s => (s.length : Int)) ["a", "bb", "c"] :: l2 ∧
      ∀ y ∈ l1, calculate_cost (fun s => (s.length : Int))
          (optimize_transaction_order (fun s => (s.length : Int)) ["a", "bb", "c"]) <
        calculate_cost (fun s => (s.length : Int)) y) :=
  ⟨by decide, claim_C4 (fun s => (s.length : Int)) ["a", "bb", "c"]⟩

/-- C5: validate returns false exactly when some block other than the first
carries a previous_hash different from the hash of its predecessor, and
returns true on every chain of length zero or one. -/
theorem claim_C5 (c : List Block) :
    (validate_chain c = false ↔
      ∃ i, ∃ hi : i + 1 < c.length,
        (c.get ⟨i + 1, hi⟩).previous_hash ≠ (c.get ⟨i, Nat.lt_of_succ_lt hi⟩).hash) ∧
    (c.length ≤ 1 → validate_chain c = true) := by
  refine ⟨validate_chain_false_iff c, ?_⟩
  intro hlen
  cases c with
  | nil => rfl
  | cons a t =>
    cases t with
    | nil => rfl
    | cons b t2 =>
      simp only [List.length_cons] at hlen
      omega

/-- Witness for C5 on a singleton chain. -/
theorem claim_C5_witness :
    validate_chain [(⟨["t"], genesis64, "h1"⟩ : Block)] = true :=
  (claim_C5 [(⟨["t"], genesis64, "h1"⟩ : Block)]).2 (by decide)

/-- C6: the new block of add_block carries the hash of the last canonical
block as previous_hash, or the 64-hex-zero sentinel when the canonical
chain is empty; a fresh Network validates. -/
theorem claim_C6 (entropy : String) (net : QuantumNetwork) (txs : List String)
    (n0 : QuantumNode) (rest : List QuantumNode) (hn : net.nodes = n0 :: rest) :
    (∃ net' ret b, add_block entropy net txs = .ok (net', ret) ∧
      net'.global_chain = net.global_chain ++ [b] ∧
      (∀ lb, net.global_chain.getLast? = some lb → b.previous_hash = lb.hash) ∧
      (net.global_chain = [] → b.previous_hash = genesis64)) ∧
    ∀ m : Nat, validate_chain (mkNetwork m).global_chain = true := by
  constructor
  · refine ⟨_, _, made_block entropy net.global_chain txs,
      add_block_eq entropy net txs n0 rest hn, rfl, ?_, ?_⟩
    · intro lb hlb
      rw [made_block_previous_hash]
      simp [last_hash, hlb]
    · intro hempty
      rw [made_block_previous_hash]
      simp [last_hash, hempty]
  · intro m
    rfl

/-- Witness for C6 on a fresh one-node network, where the first block gets
the all-zero sentinel. -/
theorem claim_C6_witness :
    (∃ net' ret b, add_block "e" (mkNetwork 1) ["a"] = .ok (net', ret) ∧
      net'.global_chain = (mkNetwork 1).global_chain ++ [b] ∧
      (∀ lb, (mkNetwork 1).global_chain.getLast? = some lb → b.previous_hash = lb.hash) ∧
      ((mkNetwork 1).global_chain = [] → b.previous_hash = genesis64)) ∧
    ∀ m : Nat, validate_chain (mkNetwork m).global_chain = true :=
  claim_C6 "e" (mkNetwork 1) ["a"] ⟨0, []⟩ [] (by decide)

/-- C7 counterexample: add_block returns None (the function body has no
return statement), even though it does create and append a block - the
canonical chain has length one after the call. -/
theorem claim_C7_cex :
    ((add_block "e" (mkNetwork 1) ["t"]).toOption.map (fun p => p.2)) =
      some (none : Option Block) ∧
    ((add_block "e" (mkNetwork 1) ["t"]).toOption.map
      (fun p => p.1.global_chain.length)) = some 1 := by
  constructor
  · decide
  · decide

/-- C7 amended: add_block returns None; the block it created is appended as
the last element of the canonical chain. -/
theorem claim_C7 (entropy : String) (net : QuantumNetwork) (txs : List String)
    (n0 : QuantumNode) (rest : List QuantumNode) (hn : net.nodes = n0 :: rest) :
    ∃ net' b, add_block entropy net txs = .ok (net', (none : Option Block)) ∧
      net'.global_chain = net.global_chain ++ [b] :=
  ⟨_, made_block entropy net.global_chain txs,
    add_block_eq entropy net txs n0 rest hn, rfl⟩

/-- Witness for C7 as amended, on a fresh three-node network. -/
theorem claim_C7_witness :
    ∃ net' b, add_block "e" (mkNetwork 3) ["x"] = .ok (net', (none : Option Block)) ∧
      net'.global_chain = (mkNetwork 3).global_chain ++ [b] :=
  claim_C7 "e" (mkNetwork 3) ["x"] ⟨0, []⟩ [⟨1, []⟩, ⟨2, []⟩] (by decide)

/-- C8: the optimizer is the identity on the empty batch and on every
single-element batch, for every hash function. -/
theorem claim_C8 (h : String → Int) (x : String) :
    optimize_transaction_order h [] = [] ∧ optimize_transaction_order h [x] = [x] :=
  ⟨rfl, rfl⟩

/-- C9: create_transaction and transfer_erc20 fail with the not-deployed
error exactly when no ERC20 contract is configured; on a fresh network both
fail, never silently no-op. -/
theorem claim_C9 (net : QuantumNetwork) (sender_address recipient_address : String)
    (amount : Nat) (private_key recipient : String) :
    (create_transaction net sender_address recipient_address amount private_key =
        .error "ERC20 contract not deployed." ↔ net.contract = none) ∧
    (transfer_erc20 net recipient amount sender_address private_key =
        .error "ERC20 contract not deployed." ↔ net.contract = none) ∧
    ∀ m : Nat, create_transaction (mkNetwork m) sender_address recipient_address
        amount private_key = .error "ERC20 contract not deployed." := by
  refine ⟨?_, ?_, fun m => rfl⟩
  · cases hc : net.contract <;> simp [create_transaction, hc]
  · cases hc : net.contract <;> simp [transfer_erc20, hc]

/-- C10: validate reads only the previous_hash and hash fields, so two
chains that agree on those pairwise validate identically, whatever their
transactions. -/
theorem claim_C10 (c1 c2 : List Block)
    (hproj : c1.map (fun b => (b.previous_hash, b.hash)) =
      c2.map (fun b => (b.previous_hash, b.hash))) :
    validate_chain c1 = validate_chain c2 :=
  validate_chain_congr c1 c2 hproj

/-- Witness for C10: tampering with the transactions of both blocks of a
linked chain leaves the validation verdict unchanged. -/
theorem claim_C10_witness :
    validate_chain [(⟨["pay alice"], genesis64, "h1"⟩ : Block), ⟨["pay bob"], "h1", "h2"⟩] =
      validate_chain [(⟨["tampered"], genesis64, "h1"⟩ : Block), ⟨["bogus"], "h1", "h2"⟩] :=
  claim_C10 [⟨["pay alice"], genesis64, "h1"⟩, ⟨["pay bob"], "h1", "h2"⟩]
    [⟨["tampered"], genesis64, "h1"⟩, ⟨["bogus"], "h1", "h2"⟩] (by decide)

end QB
